import Mathlib

/-!
Verification of the Q-learning spin simulation in
Spin_Example/paper_example.ipynb (AlphaGOinJAX).

The notebook simulates N active Ising spins on a line: each particle has a
position, a spin in {-1, +1} and a fixed velocity.  A tiny Q-function maps a
2-feature state descriptor (own spin, sign of the neighbor spin sum) to a cost
estimate per action (0 = keep, 1 = flip).  Each macro time-step sweeps the
particles in order, computing a cost signal, updating the Q-function, then
writing the new spin and position in place.

Embedding conventions:
- jnp arrays become Lean lists over ℚ (positions, velocities) and ℤ (spins);
  indexing positions[i] becomes List.getD i 0 and positions.at[i].set becomes
  List.set.
- The jax stateless PRNG (PRNGKey, split, uniform, choice) is modelled by
  concrete pure functions of a natural-number key.  The exact values are
  stand-ins; the development relies only on these being pure functions of the
  key and on the notebook never advancing its module-level key after the one
  split, which is reproduced faithfully.
- The flax Dense-relu-Dense network trained with adam is embedded as the
  tabular variant the specification names as the equivalent special case: the
  Q parameters are a table from descriptors to per-action estimates, and the
  gradient step on the mean squared error toward the target built by
  target = q_values.at[action].set(cost) acts on the table entries directly.
-/

namespace SpinSim

/-- Stand-in for jax.random.PRNGKey: a pure function of the integer seed. -/
def prngKey (seed : Nat) : Nat := seed

/-- Stand-in for jax.random.split: two derived keys, a pure function of the
input key. -/
def keySplit (k : Nat) : Nat × Nat := (2 * k + 1, 2 * k + 2)

/-- Stand-in for jax.random.uniform(key) over [0, 1): a pure function of the
key with values in [0, 1). -/
def uniform01 (k : Nat) : ℚ :=
  (((1103515245 * k + 12345) % 2147483648 : Nat) : ℚ) / 2147483648

/-- Stand-in for jax.random.uniform(key, (n,), minval := a, maxval := b): a
list of n draws, a pure function of the key. -/
def uniformArr (k n : Nat) (a b : ℚ) : List ℚ :=
  (List.range n).map (fun j => a + (b - a) * uniform01 (k + 2654435761 * (j + 1)))

/-- Stand-in for jax.random.choice(key, [-1, 1], (n,)): a list of n values,
each -1 or +1, a pure function of the key. -/
def choiceArr (k n : Nat) : List ℤ :=
  (List.range n).map (fun j => if (k + 2654435761 * (j + 1)) % 2 = 0 then (1 : ℤ) else -1)

/-- Q-function parameters: per 2-feature descriptor (own spin, sign of the
neighbor spin sum), one cost estimate for each of the two actions
(first = keep, second = flip). -/
def QTable : Type := ℤ × ℤ → ℚ × ℚ

/-- Stand-in for create_train_state network initialization: an arbitrary pure
function of the subkey. -/
def initQ (k : Nat) : QTable := fun _ => (uniform01 k, uniform01 (k + 1))

/-- Run configuration of the notebook: the module-level constants of the
parameter cell, the iteration count of the simulation loop, and the PRNG
seed. -/
structure Config where
  N : Nat
  L : ℚ
  dx : ℚ
  v1 : ℚ
  v2 : ℚ
  alpha : ℚ
  epsilon : ℚ
  dt : ℚ
  steps : Nat
  seed : Nat

/-- The key used for the three initialization draws. -/
def initKey (cfg : Config) : Nat := prngKey cfg.seed

/-- The module-level key after the single split, used (and never advanced) by
every update_spin call. -/
def runKey (cfg : Config) : Nat := (keySplit (prngKey cfg.seed)).1

/-- The subkey consumed by the network initialization. -/
def qKey (cfg : Config) : Nat := (keySplit (prngKey cfg.seed)).2

/-- The value of jax.random.uniform(key) inside update_spin.  The notebook
never advances the module-level key after the single split, so every call
evaluates the same fixed rational. -/
def runUniform (cfg : Config) : ℚ := uniform01 (runKey cfg)

/-- Embedding of get_neighbors(i, positions, spins): spins of all particles j
whose position lies in the closed interval [positions[i] - dx,
positions[i] + dx].  No wraparound modulo L is applied. -/
def get_neighbors (dx : ℚ) (i : Nat) (positions : List ℚ) (spins : List ℤ) : List ℤ :=
  let left := positions.getD i 0 - dx
  let right := positions.getD i 0 + dx
  ((positions.zip spins).filter
    (fun pr => decide (left ≤ pr.1) && decide (pr.1 ≤ right))).map Prod.snd

/-- The 2-feature state descriptor jnp.array([spins[i],
jnp.sign(jnp.sum(get_neighbors(i, positions, spins)))]). -/
def descriptor (dx : ℚ) (i : Nat) (positions : List ℚ) (spins : List ℤ) : ℤ × ℤ :=
  (spins.getD i 0, Int.sign ((get_neighbors dx i positions spins).sum))

/-- jnp.argmin on a length-2 vector: index of the minimum entry, first index
on ties. -/
def argmin2 (q : ℚ × ℚ) : Nat := if q.2 < q.1 then 1 else 0

/-- The greedy branch of update_spin: evaluate the Q values at the descriptor
and keep the spin when the argmin action is 0, flip it otherwise. -/
def greedySpin (dx : ℚ) (i : Nat) (positions : List ℚ) (spins : List ℤ) (q : QTable) : ℤ :=
  if argmin2 (q (descriptor dx i positions spins)) = 0 then spins.getD i 0
  else -spins.getD i 0

/-- Embedding of update_spin(i, spins, Q, epsilon).  The branch test reads the
fixed module-level key, so the draw is runUniform cfg at every call; the
exploration branch returns -spins[i] unconditionally. -/
def update_spin (cfg : Config) (i : Nat) (positions : List ℚ) (spins : List ℤ)
    (q : QTable) : ℤ :=
  if runUniform cfg < cfg.epsilon then -spins.getD i 0
  else greedySpin cfg.dx i positions spins q

/-- Embedding of update_position(i, positions, spins, velocities):
positions[i] + velocities[i] * spins[i] * delta_t. -/
def update_position (dt : ℚ) (i : Nat) (positions velocities : List ℚ)
    (spins : List ℤ) : ℚ :=
  positions.getD i 0 + velocities.getD i 0 * ((spins.getD i 0 : ℤ) : ℚ) * dt

/-- Embedding of cost_function(i, positions, spins): select a candidate spin
via update_spin, compute the candidate position via update_position from the
current (pre-update) spin, and return 1 when the neighbor count strictly
drops, 0 otherwise. -/
def cost_function (cfg : Config) (positions : List ℚ) (spins : List ℤ)
    (velocities : List ℚ) (q : QTable) (i : Nat) : ℚ :=
  let neighbors_before := get_neighbors cfg.dx i positions spins
  let new_spin := update_spin cfg i positions spins q
  let new_position := update_position cfg.dt i positions velocities spins
  let neighbors_after :=
    get_neighbors cfg.dx i (positions.set i new_position) (spins.set i new_spin)
  if neighbors_after.length < neighbors_before.length then 1 else 0

/-- Embedding of update_Q(i, state, cost): recompute the descriptor and the
argmin action from the current Q values, set the target for that action to
the cost, and take one gradient step on mean((q_values - target)^2).  In the
tabular parametrization the derivative in the argmin entry is
(q_a - cost) and every other residual is zero, so the step is
q_a := q_a - alpha * (q_a - cost) = (1 - alpha) * q_a + alpha * cost with all
other entries unchanged. -/
def update_Q (cfg : Config) (positions : List ℚ) (spins : List ℤ) (q : QTable)
    (i : Nat) (cost : ℚ) : QTable :=
  let d := descriptor cfg.dx i positions spins
  let qv := q d
  let a := argmin2 qv
  fun e =>
    if e = d then
      (if a = 0 then ((1 - cfg.alpha) * qv.1 + cfg.alpha * cost, qv.2)
       else (qv.1, (1 - cfg.alpha) * qv.2 + cfg.alpha * cost))
    else q e

/-- The action index update_spin takes: 1 (flip) in the exploration branch,
otherwise the greedy argmin.  update_spin returns -spins[i] exactly when this
is 1 and spins[i] when this is 0. -/
def chosenAction (cfg : Config) (i : Nat) (positions : List ℚ) (spins : List ℤ)
    (q : QTable) : Nat :=
  if runUniform cfg < cfg.epsilon then 1
  else argmin2 (q (descriptor cfg.dx i positions spins))

/-- Modelled from the spec: select_action as worded there, with probability
epsilon a uniformly random action where the fair coin b decides between flip
(true) and keep (false), otherwise the argmin action.  The source update_spin
consumes no such coin; this definition exists only for comparison. -/
def selectActionSpec (cfg : Config) (b : Bool) (i : Nat) (positions : List ℚ)
    (spins : List ℤ) (q : QTable) : ℤ :=
  if runUniform cfg < cfg.epsilon then
    (if b then -spins.getD i 0 else spins.getD i 0)
  else greedySpin cfg.dx i positions spins q

/-- Simulation state: the three particle arrays and the Q parameters. -/
structure SimState where
  positions : List ℚ
  spins : List ℤ
  velocities : List ℚ
  q : QTable

/-- Body of the inner loop of the simulation cell: compute the cost with the
pre-update Q state, update the Q parameters, write the new spin selected with
the post-update Q state, then write the new position computed from the
just-written spin.  Velocities are read but never written. -/
def stepParticle (cfg : Config) (st : SimState) (i : Nat) : SimState :=
  let cost := cost_function cfg st.positions st.spins st.velocities st.q i
  let q2 := update_Q cfg st.positions st.spins st.q i cost
  let s2 := update_spin cfg i st.positions st.spins q2
  let spins2 := st.spins.set i s2
  let p2 := update_position cfg.dt i st.positions st.velocities spins2
  { positions := st.positions.set i p2, spins := spins2,
    velocities := st.velocities, q := q2 }

/-- One macro time-step: a sequential in-place sweep over the particles in
index order. -/
def macroStep (cfg : Config) (st : SimState) : SimState :=
  (List.range cfg.N).foldl (stepParticle cfg) st

/-- The initialization cell: positions, spins and velocities are drawn from
the unsplit seed key; the Q parameters are initialized from the subkey of the
single split. -/
def initState (cfg : Config) : SimState :=
  { positions := uniformArr (initKey cfg) cfg.N 0 cfg.L
    spins := choiceArr (initKey cfg) cfg.N
    velocities := uniformArr (initKey cfg) cfg.N cfg.v1 cfg.v2
    q := initQ (qKey cfg) }

/-- The full simulation loop: steps macro time-steps from the initialized
state.  Everything downstream of the seed is a pure function of cfg. -/
def run (cfg : Config) : SimState :=
  (List.range cfg.steps).foldl (fun st _ => macroStep cfg st) (initState cfg)

/-- Modelled from the spec: the documented configuration domain (N positive,
v1 < v2, alpha and epsilon in [0, 1], delta_t positive).  The source contains
no counterpart check. -/
def validConfig (cfg : Config) : Prop :=
  0 < cfg.N ∧ cfg.v1 < cfg.v2 ∧ 0 ≤ cfg.alpha ∧ cfg.alpha ≤ 1
    ∧ 0 ≤ cfg.epsilon ∧ cfg.epsilon ≤ 1 ∧ 0 < cfg.dt

instance (cfg : Config) : Decidable (validConfig cfg) := by
  unfold validConfig
  infer_instance

/-- Concrete configuration with epsilon = 1, used to exercise the exploration
branch of update_spin on concrete inputs. -/
def cexCfg : Config :=
  { N := 1, L := 10, dx := 1, v1 := 1/10, v2 := 1, alpha := 1/10,
    epsilon := 1, dt := 1/10, steps := 1, seed := 0 }

/-- Concrete configuration with epsilon = 2, outside the documented domain. -/
def invalidCfg : Config :=
  { N := 1, L := 10, dx := 1, v1 := 1/10, v2 := 1, alpha := 1/10,
    epsilon := 2, dt := 1/10, steps := 1, seed := 0 }

/-- Concrete Q table whose argmin action is 0 (keep) at every descriptor. -/
def cexQ : QTable := fun _ => (0, 1)

/-- Concrete Q table with estimates (5, 9), argmin action 0, at every
descriptor. -/
def cexQ2 : QTable := fun _ => (5, 9)

/-- The spins produced by initialization and by every spin write are -1 or
+1. -/
def spinsValid (ss : List ℤ) : Prop := ∀ s ∈ ss, s = 1 ∨ s = -1

/-- Index form of the zip-filter-map pattern in get_neighbors: filtering the
zipped position-spin pairs on the position and keeping the spins equals
filtering the index range on the position at that index and reading the spin
there. -/
theorem zip_filter_snd_eq (p : ℚ → Bool) :
    ∀ (ps : List ℚ) (ss : List ℤ), ps.length = ss.length →
      ((ps.zip ss).filter (fun pr => p pr.1)).map Prod.snd
        = ((List.range ps.length).filter (fun j => p (ps.getD j 0))).map
            (fun j => ss.getD j 0) := by
  intro ps
  induction ps with
  | nil => intro ss h; simp
  | cons a ps ih =>
    intro ss h
    cases ss with
    | nil => simp at h
    | cons b ss =>
      have h2 : ps.length = ss.length := by simpa using h
      have hfil : ((List.range ps.length).map Nat.succ).filter
            (fun j => p ((a :: ps).getD j 0))
          = ((List.range ps.length).filter (fun j => p (ps.getD j 0))).map Nat.succ := by
        rw [List.filter_map]
        exact congrArg (List.map Nat.succ) (List.filter_congr (fun j _ => rfl))
      have hmap : (((List.range ps.length).filter (fun j => p (ps.getD j 0))).map
            Nat.succ).map (fun j => (b :: ss).getD j 0)
          = ((List.range ps.length).filter (fun j => p (ps.getD j 0))).map
            (fun j => ss.getD j 0) := by
        rw [List.map_map]
        exact List.map_congr_left (fun j _ => rfl)
      rw [List.zip_cons_cons, List.length_cons, List.range_succ_eq_map]
      cases hpa : p a with
      | true =>
        rw [List.filter_cons_of_pos (by exact hpa),
          List.filter_cons_of_pos (by exact hpa),
          List.map_cons, List.map_cons, hfil, hmap, ih ss h2]
        rfl
      | false =>
        rw [List.filter_cons_of_neg (by simp [hpa]),
          List.filter_cons_of_neg (by simp [hpa, List.getD_cons_zero]),
          hfil, hmap, ih ss h2]

/-- Claim C3: get_neighbors returns exactly the spins of the particles j
(including i itself) whose position lies in the closed interval
[positions[i] - dx, positions[i] + dx], inclusive at both endpoints; the
positions are compared directly, with no wraparound modulo L, and the inputs
are not modified (the embedding is a pure function of its arguments). -/
theorem get_neighbors_characterization (dx : ℚ) (i : Nat) (ps : List ℚ) (ss : List ℤ)
    (hlen : ps.length = ss.length) (hi : i < ps.length) (hdx : 0 ≤ dx) :
    get_neighbors dx i ps ss
      = ((List.range ps.length).filter
          (fun j => decide (ps.getD i 0 - dx ≤ ps.getD j 0)
              && decide (ps.getD j 0 ≤ ps.getD i 0 + dx))).map
          (fun j => ss.getD j 0)
    ∧ ss.getD i 0 ∈ get_neighbors dx i ps ss := by
  have hchar := zip_filter_snd_eq
    (fun x => decide (ps.getD i 0 - dx ≤ x) && decide (x ≤ ps.getD i 0 + dx)) ps ss hlen
  refine ⟨hchar, ?_⟩
  rw [show get_neighbors dx i ps ss
        = ((ps.zip ss).filter (fun pr => decide (ps.getD i 0 - dx ≤ pr.1)
            && decide (pr.1 ≤ ps.getD i 0 + dx))).map Prod.snd from rfl, hchar]
  refine List.mem_map.mpr ⟨i, List.mem_filter.mpr ⟨List.mem_range.mpr hi, ?_⟩, rfl⟩
  simp only [Bool.and_eq_true, decide_eq_true_eq]
  exact ⟨sub_le_self _ hdx, le_add_of_nonneg_right hdx⟩

/-- Witness for claim C3 at the 3-particle layout of the spec scenario:
positions [0, 1/2, 5], spins [1, 1, -1], dx = 1, i = 0; the neighbors of
particle 0 are exactly the spins at indices 0 and 1. -/
theorem get_neighbors_characterization_witness :
    get_neighbors 1 0 [0, 1/2, 5] [1, 1, -1]
      = ((List.range ([(0 : ℚ), 1/2, 5]).length).filter
          (fun j => decide (([(0 : ℚ), 1/2, 5]).getD 0 0 - 1 ≤ ([(0 : ℚ), 1/2, 5]).getD j 0)
              && decide (([(0 : ℚ), 1/2, 5]).getD j 0 ≤ ([(0 : ℚ), 1/2, 5]).getD 0 0 + 1))).map
          (fun j => ([(1 : ℤ), 1, -1]).getD j 0)
    ∧ ([(1 : ℤ), 1, -1]).getD 0 0 ∈ get_neighbors 1 0 [0, 1/2, 5] [1, 1, -1] :=
  get_neighbors_characterization 1 0 [0, 1/2, 5] [1, 1, -1]
    (by rfl) (by norm_num) (by norm_num)

/-- Claim C4: the cost signal is 1 exactly when the neighbor count after
applying the candidate spin and candidate position is strictly smaller than
before, and 0 otherwise; the candidate position is
positions[i] + velocities[i] * spins[i] * delta_t with spins[i] the
pre-update spin, not the candidate spin produced by update_spin. -/
theorem cost_function_eq (cfg : Config) (ps : List ℚ) (ss : List ℤ) (vs : List ℚ)
    (q : QTable) (i : Nat) :
    cost_function cfg ps ss vs q i
      = (if (get_neighbors cfg.dx i
              (ps.set i (ps.getD i 0 + vs.getD i 0 * ((ss.getD i 0 : ℤ) : ℚ) * cfg.dt))
              (ss.set i (update_spin cfg i ps ss q))).length
            < (get_neighbors cfg.dx i ps ss).length
         then 1 else 0)
    ∧ (cost_function cfg ps ss vs q i = 0 ∨ cost_function cfg ps ss vs q i = 1) := by
  have h1 : cost_function cfg ps ss vs q i
      = (if (get_neighbors cfg.dx i
              (ps.set i (ps.getD i 0 + vs.getD i 0 * ((ss.getD i 0 : ℤ) : ℚ) * cfg.dt))
              (ss.set i (update_spin cfg i ps ss q))).length
            < (get_neighbors cfg.dx i ps ss).length
         then 1 else 0) := rfl
  refine ⟨h1, ?_⟩
  rw [h1]
  split
  · exact Or.inr rfl
  · exact Or.inl rfl

/-- Claim C1 (amended): with probability epsilon — that is, whenever the fixed
uniform draw is below epsilon — update_spin returns the flipped spin
deterministically (no further uniform choice between keep and flip is made);
otherwise it returns the action of minimum estimated cost, the argmin of the
Q values at the descriptor with ties resolved to keep. -/
theorem update_spin_flip_or_argmin (cfg : Config) (i : Nat) (ps : List ℚ)
    (ss : List ℤ) (q : QTable) :
    update_spin cfg i ps ss q
      = (if runUniform cfg < cfg.epsilon then -ss.getD i 0
         else if argmin2 (q (descriptor cfg.dx i ps ss)) = 0 then ss.getD i 0
         else -ss.getD i 0)
    ∧ (argmin2 (q (descriptor cfg.dx i ps ss)) = 0 →
        (q (descriptor cfg.dx i ps ss)).1 ≤ (q (descriptor cfg.dx i ps ss)).2)
    ∧ (argmin2 (q (descriptor cfg.dx i ps ss)) = 1 →
        (q (descriptor cfg.dx i ps ss)).2 < (q (descriptor cfg.dx i ps ss)).1) := by
  refine ⟨rfl, ?_, ?_⟩
  · intro h
    unfold argmin2 at h
    by_cases hlt : (q (descriptor cfg.dx i ps ss)).2 < (q (descriptor cfg.dx i ps ss)).1
    · rw [if_pos hlt] at h
      exact absurd h one_ne_zero
    · exact le_of_not_lt hlt
  · intro h
    unfold argmin2 at h
    by_cases hlt : (q (descriptor cfg.dx i ps ss)).2 < (q (descriptor cfg.dx i ps ss)).1
    · exact hlt
    · rw [if_neg hlt] at h
      exact absurd h.symm one_ne_zero

/-- Witness for claim C1 at a concrete input: with epsilon = 1 the draw is
below epsilon and the update flips the spin; the argmin tie case is also
instantiated. -/
theorem update_spin_flip_or_argmin_witness :
    update_spin cexCfg 0 [0] [1] cexQ
      = (if runUniform cexCfg < cexCfg.epsilon then -([(1 : ℤ)]).getD 0 0
         else if argmin2 (cexQ (descriptor cexCfg.dx 0 [0] [1])) = 0
           then ([(1 : ℤ)]).getD 0 0
         else -([(1 : ℤ)]).getD 0 0)
    ∧ (cexQ (descriptor cexCfg.dx 0 [0] [1])).1 ≤ (cexQ (descriptor cexCfg.dx 0 [0] [1])).2 :=
  ⟨(update_spin_flip_or_argmin cexCfg 0 [0] [1] cexQ).1,
   (update_spin_flip_or_argmin cexCfg 0 [0] [1] cexQ).2.1 (by norm_num [argmin2, cexQ])⟩

/-- Claim C1 counterexample: in the exploration regime (the draw is below
epsilon) the source update_spin always returns the flipped spin, never the
kept one, whereas the claimed uniformly random choice between keep and flip
produces the kept spin on the coin value keep; at this concrete input the two
disagree. -/
theorem update_spin_explore_not_uniform :
    runUniform cexCfg < cexCfg.epsilon
    ∧ update_spin cexCfg 0 [0] [1] cexQ = -1
    ∧ selectActionSpec cexCfg false 0 [0] [1] cexQ = 1 := by
  refine ⟨?_, ?_, ?_⟩
  · norm_num [runUniform, uniform01, runKey, keySplit, prngKey, cexCfg]
  · norm_num [update_spin, runUniform, uniform01, runKey, keySplit, prngKey, cexCfg]
  · norm_num [selectActionSpec, runUniform, uniform01, runKey, keySplit, prngKey, cexCfg]

/-- Claim C10: for any fixed configuration the exploration draw inside
update_spin reads the same never-advanced key at every call, so either every
invocation in the run takes the exploration branch (and flips) or every
invocation takes the greedy branch — uniformly in the particle index, the
arrays and the Q parameters. -/
theorem explore_decision_constant (cfg : Config) :
    (∀ (i : Nat) (ps : List ℚ) (ss : List ℤ) (q : QTable),
        update_spin cfg i ps ss q = -ss.getD i 0)
    ∨ (∀ (i : Nat) (ps : List ℚ) (ss : List ℤ) (q : QTable),
        update_spin cfg i ps ss q = greedySpin cfg.dx i ps ss q) := by
  by_cases h : runUniform cfg < cfg.epsilon
  · exact Or.inl (fun i ps ss q => by unfold update_spin; rw [if_pos h])
  · exact Or.inr (fun i ps ss q => by unfold update_spin; rw [if_neg h])

/-- Claim C8: when the neighbor query returns the empty list, the sign of the
neighbor spin sum is 0 and the state descriptor is (spins[i], 0); the
downstream per-particle updates are total functions of it. -/
theorem descriptor_empty_neighbors (dx : ℚ) (i : Nat) (ps : List ℚ) (ss : List ℤ)
    (h : get_neighbors dx i ps ss = []) :
    descriptor dx i ps ss = (ss.getD i 0, 0) := by
  unfold descriptor
  rw [h]
  rfl

/-- Witness for claim C8 at a concrete input with an empty neighbor list. -/
theorem descriptor_empty_neighbors_witness :
    get_neighbors (-1) 0 [0] [1] = []
    ∧ descriptor (-1) 0 [0] [1] = (([(1 : ℤ)]).getD 0 0, 0) :=
  ⟨by norm_num [get_neighbors],
   descriptor_empty_neighbors (-1) 0 [0] [1] (by norm_num [get_neighbors])⟩

/-- Claim C6: the simulation loop is a deterministic function of the
configuration, which carries the seed: two runs with identical configuration
and seed produce identical final spins and positions. -/
theorem run_deterministic (c1 c2 : Config) (h : c1 = c2) :
    (run c1).spins = (run c2).spins ∧ (run c1).positions = (run c2).positions := by
  subst h
  exact ⟨rfl, rfl⟩

/-- Witness for claim C6 at a concrete configuration. -/
theorem run_deterministic_witness :
    (run cexCfg).spins = (run cexCfg).spins
    ∧ (run cexCfg).positions = (run cexCfg).positions :=
  run_deterministic cexCfg cexCfg rfl

/-- Claim C7: the source performs no configuration validation.  With
epsilon = 2, outside the documented domain [0, 1], the run is not rejected:
initialization and a full macro time-step execute, and the particle spin is
updated (flipped by the exploration branch, which fires because the draw is
below 2). -/
theorem run_executes_with_invalid_epsilon :
    ¬ validConfig invalidCfg
    ∧ (initState invalidCfg).spins = [-1]
    ∧ (run invalidCfg).spins = [1] := by
  refine ⟨?_, ?_, ?_⟩
  · norm_num [validConfig, invalidCfg]
  · norm_num [initState, choiceArr, initKey, prngKey, invalidCfg, List.range_succ]
  · norm_num [run, macroStep, initState, stepParticle, update_spin, runUniform, uniform01,
      runKey, keySplit, prngKey, choiceArr, initKey, invalidCfg, List.range_succ]

/-- Claim C2 (amended): update_Q adjusts the estimate of the greedy argmin
action recomputed from the current Q values at update time — which in the
exploration regime can differ from the action chosen during the cost
computation — moving exactly that entry toward the observed cost by
q := (1 - alpha) * q + alpha * cost, and leaving the other action and every
other descriptor unchanged. -/
theorem update_Q_adjusts_argmin (cfg : Config) (ps : List ℚ) (ss : List ℤ)
    (q : QTable) (i : Nat) (c : ℚ) :
    (argmin2 (q (descriptor cfg.dx i ps ss)) = 0 →
      update_Q cfg ps ss q i c (descriptor cfg.dx i ps ss)
        = ((1 - cfg.alpha) * (q (descriptor cfg.dx i ps ss)).1 + cfg.alpha * c,
           (q (descriptor cfg.dx i ps ss)).2))
    ∧ (argmin2 (q (descriptor cfg.dx i ps ss)) = 1 →
      update_Q cfg ps ss q i c (descriptor cfg.dx i ps ss)
        = ((q (descriptor cfg.dx i ps ss)).1,
           (1 - cfg.alpha) * (q (descriptor cfg.dx i ps ss)).2 + cfg.alpha * c))
    ∧ (∀ e, e ≠ descriptor cfg.dx i ps ss → update_Q cfg ps ss q i c e = q e) := by
  refine ⟨?_, ?_, ?_⟩
  · intro h
    simp [update_Q, h]
  · intro h
    simp [update_Q, h]
  · intro e he
    simp [update_Q, he]

/-- Witness for claim C2 at a concrete input where the argmin action is 0. -/
theorem update_Q_adjusts_argmin_witness :
    update_Q cexCfg [0] [1] cexQ2 0 7 (descriptor cexCfg.dx 0 [0] [1])
      = ((1 - cexCfg.alpha) * (cexQ2 (descriptor cexCfg.dx 0 [0] [1])).1 + cexCfg.alpha * 7,
         (cexQ2 (descriptor cexCfg.dx 0 [0] [1])).2) :=
  (update_Q_adjusts_argmin cexCfg [0] [1] cexQ2 0 7).1 (by norm_num [argmin2, cexQ2])

/-- Claim C2 counterexample: with epsilon = 1 the action chosen during the
cost computation is flip (index 1), yet update_Q adjusts the keep entry
(index 0) of the Q values, from 5 to 9/2, and leaves the flip entry at 9
unchanged — the update targets the recomputed argmin action, not the chosen
action, which is never passed to it. -/
theorem update_Q_ignores_chosen_action :
    chosenAction cexCfg 0 [0] [1] cexQ2 = 1
    ∧ update_Q cexCfg [0] [1] cexQ2 0
        (cost_function cexCfg [0] [1] [1/2] cexQ2 0) (descriptor cexCfg.dx 0 [0] [1])
      = (9/2, 9)
    ∧ cexQ2 (descriptor cexCfg.dx 0 [0] [1]) = (5, 9) := by
  refine ⟨?_, ?_, ?_⟩
  · norm_num [chosenAction, runUniform, uniform01, runKey, keySplit, prngKey, cexCfg]
  · norm_num [update_Q, cost_function, update_spin, update_position, get_neighbors,
      descriptor, argmin2, cexQ2, runUniform, uniform01, runKey, keySplit, prngKey, cexCfg]
  · norm_num [cexQ2]

/-- Every update_spin result is the current spin or its negation. -/
theorem update_spin_self_or_neg (cfg : Config) (i : Nat) (ps : List ℚ) (ss : List ℤ)
    (q : QTable) :
    update_spin cfg i ps ss q = ss.getD i 0 ∨ update_spin cfg i ps ss q = -ss.getD i 0 := by
  unfold update_spin greedySpin
  split
  · exact Or.inr rfl
  · split
    · exact Or.inl rfl
    · exact Or.inr rfl

/-- The spin array after one particle update is the old array with index i
set to the update_spin result computed from the post-update Q state. -/
theorem stepParticle_spins_eq (cfg : Config) (st : SimState) (i : Nat) :
    (stepParticle cfg st i).spins
      = st.spins.set i (update_spin cfg i st.positions st.spins
          (update_Q cfg st.positions st.spins st.q i
            (cost_function cfg st.positions st.spins st.velocities st.q i))) := rfl

/-- One particle update preserves the plus-minus-one spin invariant. -/
theorem spinsValid_step (cfg : Config) (st : SimState) (i : Nat)
    (h : spinsValid st.spins) : spinsValid (stepParticle cfg st i).spins := by
  intro x hx
  rw [stepParticle_spins_eq] at hx
  by_cases hi : i < st.spins.length
  · rcases List.mem_or_eq_of_mem_set hx with hmem | heq
    · exact h x hmem
    · have hmem2 : st.spins.getD i 0 ∈ st.spins := by
        rw [List.getD_eq_getElem st.spins 0 hi]
        exact List.getElem_mem hi
      have hm := h _ hmem2
      have he := update_spin_self_or_neg cfg i st.positions st.spins
        (update_Q cfg st.positions st.spins st.q i
          (cost_function cfg st.positions st.spins st.velocities st.q i))
      omega
  · rw [List.set_eq_of_length_le (Nat.le_of_not_lt hi)] at hx
    exact h x hx

/-- The initialization draw for the spins produces only -1 and +1. -/
theorem choiceArr_spinsValid (k n : Nat) : spinsValid (choiceArr k n) := by
  intro s hs
  unfold choiceArr at hs
  rcases List.mem_map.mp hs with ⟨j, _, hj⟩
  by_cases hc : (k + 2654435761 * (j + 1)) % 2 = 0
  · rw [if_pos hc] at hj
    exact Or.inl hj.symm
  · rw [if_neg hc] at hj
    exact Or.inr hj.symm

/-- A sweep of particle updates preserves the spin invariant. -/
theorem spinsValid_foldl_step (cfg : Config) (l : List Nat) :
    ∀ st : SimState, spinsValid st.spins →
      spinsValid ((l.foldl (stepParticle cfg) st).spins) := by
  induction l with
  | nil => exact fun st h => h
  | cons a l ih => exact fun st h => ih _ (spinsValid_step cfg st a h)

/-- A macro time-step preserves the spin invariant. -/
theorem spinsValid_macroStep (cfg : Config) (st : SimState)
    (h : spinsValid st.spins) : spinsValid (macroStep cfg st).spins :=
  spinsValid_foldl_step cfg (List.range cfg.N) st h

/-- The outer loop preserves the spin invariant. -/
theorem spinsValid_runLoop (cfg : Config) (l : List Nat) :
    ∀ st : SimState, spinsValid st.spins →
      spinsValid ((l.foldl (fun s _ => macroStep cfg s) st).spins) := by
  induction l with
  | nil => exact fun st h => h
  | cons a l ih => exact fun st h => ih _ (spinsValid_macroStep cfg st h)

/-- Claim C5: every spin is -1 or +1 at all times: the initial spin array
contains only -1 and +1, every per-particle update preserves this, and the
final spins of the full run are all -1 or +1. -/
theorem spins_always_pm_one (cfg : Config) :
    spinsValid (initState cfg).spins
    ∧ (∀ (st : SimState) (i : Nat), spinsValid st.spins →
        spinsValid (stepParticle cfg st i).spins)
    ∧ spinsValid ((run cfg).spins) := by
  refine ⟨choiceArr_spinsValid _ _, fun st i h => spinsValid_step cfg st i h, ?_⟩
  exact spinsValid_runLoop cfg (List.range cfg.steps) (initState cfg)
    (choiceArr_spinsValid _ _)

/-- Witness for claim C5: one particle update applied to a concrete valid
state keeps the spins in {-1, +1}. -/
theorem spins_always_pm_one_witness :
    spinsValid ((stepParticle cexCfg
      { positions := [0], spins := [1], velocities := [1/2], q := cexQ } 0).spins) :=
  (spins_always_pm_one cexCfg).2.1
    { positions := [0], spins := [1], velocities := [1/2], q := cexQ } 0
    (by unfold spinsValid; decide)

/-- One particle update leaves velocities untouched, as a sweep does. -/
theorem foldl_velocities (cfg : Config) (l : List Nat) :
    ∀ st : SimState, (l.foldl (stepParticle cfg) st).velocities = st.velocities := by
  induction l with
  | nil => exact fun _ => rfl
  | cons a l ih => exact fun st => ih (stepParticle cfg st a)

/-- A macro time-step leaves velocities untouched. -/
theorem macroStep_velocities (cfg : Config) (st : SimState) :
    (macroStep cfg st).velocities = st.velocities :=
  foldl_velocities cfg (List.range cfg.N) st

/-- The outer loop leaves velocities untouched. -/
theorem runLoop_velocities (cfg : Config) (l : List Nat) :
    ∀ st : SimState, (l.foldl (fun s _ => macroStep cfg s) st).velocities
      = st.velocities := by
  induction l with
  | nil => exact fun _ => rfl
  | cons a l ih => exact fun st => (ih (macroStep cfg st)).trans (macroStep_velocities cfg st)

/-- Claim C9: velocities are immutable after initialization: every
per-particle update returns the velocities array unchanged (it writes only
spins[i], positions[i] and the Q parameters), and the final velocities of
the full run are exactly the initialization draws from [v1, v2]. -/
theorem velocities_immutable (cfg : Config) :
    (∀ (st : SimState) (i : Nat), (stepParticle cfg st i).velocities = st.velocities)
    ∧ (run cfg).velocities = uniformArr (initKey cfg) cfg.N cfg.v1 cfg.v2 :=
  ⟨fun _ _ => rfl, runLoop_velocities cfg (List.range cfg.steps) (initState cfg)⟩

end SpinSim
